import Mathlib

/-!
Shallow embedding of the canvas synchronization plugin core: the group
registry, the derivation (version-naming) algorithm and the operation
propagation engine of `CanvasSyncService` (canvasSyncService.ts), with the
data model of `types.ts`.  File contents are modelled explicitly: a stored
file either parses as canvas data or is unparseable (JSON.parse throws).
JavaScript string operations are modelled faithfully: `String.replace` with
a string pattern replaces the first occurrence only, and the greedy regex
`(.+)C(\d+)$` captures the maximal digit suffix.
-/

/-- Node type tag, from the `CanvasNodeType` enum in types.ts. -/
inductive CanvasNodeType
  | text
  | file
  | link
  | group
deriving DecidableEq, Repr

/-- Node record, from the `CanvasNodeData` interface in types.ts. -/
structure CanvasNodeData where
  id : String
  type : CanvasNodeType
  text : Option String
  file : Option String
  url : Option String
  subtype : Option String
  width : Option Int
  height : Option Int
  x : Int
  y : Int
deriving DecidableEq, Repr

/-- Edge record.  types.ts declares `edges: any[]`; the engine reads only the
`fromNode` and `toNode` fields, `id` stands for the rest of the opaque
edge payload. -/
structure CanvasEdge where
  id : String
  fromNode : String
  toNode : String
deriving DecidableEq, Repr

/-- Canvas document structure, from the `CanvasData` interface in types.ts.
The JavaScript object `nodes: { [key: string]: CanvasNodeData }` is modelled
as an association list with unique keys (JS object keys are unique). -/
structure CanvasData where
  nodes : List (String × CanvasNodeData)
  edges : List CanvasEdge
deriving DecidableEq, Repr

/-- An operation's tag together with its payload.  types.ts separates
`type: OperationType` from `data: any`; the three shapes actually passed by
canvasListener.ts and consumed by the handlers are combined here into one
tagged value. -/
inductive OpData
  | createNode (node : CanvasNodeData)
  | deleteNode (nodeId : String)
  | updateNodeText (nodeId : String) (newText : String)
deriving DecidableEq, Repr

/-- Operation record, from the `Operation` interface in types.ts. -/
structure Operation where
  op : OpData
  sourceFile : String
deriving DecidableEq, Repr

/-- Linkage group, from the `CanvasGroup` interface in types.ts. -/
structure CanvasGroup where
  files : List String
  lastSync : Nat
deriving DecidableEq, Repr

/-- Content of a stored file: either content whose `JSON.parse` yields canvas
data, or content on which `JSON.parse` throws. -/
inductive FileContent
  | canvas (data : CanvasData)
  | unparseable (raw : String)
deriving DecidableEq, Repr

/-- A vault entry: a regular file (`TFile`) with its content, or a folder
(`getAbstractFileByPath` can also return a `TFolder`). -/
inductive VaultEntry
  | file (content : FileContent)
  | folder
deriving DecidableEq, Repr

/-- The document store: an association from paths to entries, modelling the
Obsidian vault. -/
abbrev Vault := List (String × VaultEntry)

/-- Resolve a path in the vault, modelling `app.vault.getAbstractFileByPath`. -/
def lookupVault : Vault → String → Option VaultEntry
  | [], _ => none
  | (p, e) :: rest, q => if p = q then some e else lookupVault rest q

/-- Overwrite the content stored at a path, modelling `app.vault.modify`. -/
def modifyVault (v : Vault) (q : String) (c : FileContent) : Vault :=
  v.map (fun e => if e.1 = q then (q, VaultEntry.file c) else e)

/-! ### JavaScript string primitives used by the service -/

/-- Split a character list at `/` separators, as JS `split('/')` does. -/
def splitOnSlashAux : List Char → List Char → List (List Char)
  | [], acc => [acc.reverse]
  | c :: t, acc =>
    if c = '/' then acc.reverse :: splitOnSlashAux t [] else splitOnSlashAux t (c :: acc)

/-- Last path component, modelling `filePath.split('/').pop()` and equally the
`name` field of a resolved `TFile`. -/
def lastComponent (s : String) : String :=
  ⟨(splitOnSlashAux s.data []).getLastD []⟩

/-- Index of the first occurrence of `pat` in the scanned list, starting the
count at `i`. -/
def firstOccAux (pat : List Char) : List Char → Nat → Option Nat
  | [], i => if pat.isPrefixOf ([] : List Char) then some i else none
  | c :: t, i => if pat.isPrefixOf (c :: t) then some i else firstOccAux pat t (i + 1)

/-- Replace the first occurrence of `pat` in `s` by `repl`; if `pat` does not
occur, return `s` unchanged.  This is JS `String.prototype.replace` with a
string pattern. -/
def replaceFirstL (s pat repl : List Char) : List Char :=
  match firstOccAux pat s 0 with
  | none => s
  | some i => s.take i ++ repl ++ s.drop (i + pat.length)

/-- String-level wrapper for `replaceFirstL`. -/
def replaceFirst (s pat repl : String) : String :=
  ⟨replaceFirstL s.data pat.data repl.data⟩

/-- Decimal value of a digit list, as `parseInt` computes it on an all-digit
capture. -/
def parseDigits (ds : List Char) : Nat :=
  ds.foldl (fun a c => a * 10 + (c.toNat - 48)) 0

/-- Match of the greedy regex `(.+)C(\d+)$` against a base name: the capture
`(\d+)` is the maximal digit suffix, which must be nonempty and preceded by a
`C` that is itself preceded by at least one character.  Returns the `(.+)`
capture and the `parseInt` value of the digit capture. -/
def versionedMatch (baseName : String) : Option (String × Nat) :=
  let rev := baseName.data.reverse
  let ds := rev.takeWhile (fun c => c.isDigit)
  let rest := rev.dropWhile (fun c => c.isDigit)
  match rest with
  | 'C' :: pr =>
    if ds.isEmpty ∨ pr.isEmpty then none
    else some (⟨pr.reverse⟩, parseDigits ds.reverse)
  | _ => none

/-- Drop `pat` from the front of `s` when `s` starts with exactly `pat`. -/
def dropPrefixL : List Char → List Char → Option (List Char)
  | [], s => some s
  | _ :: _, [] => none
  | p :: ps, c :: cs => if p = c then dropPrefixL ps cs else none

/-- Match of the constructed scan regex `^<pfx>C(\d+)\.canvas$` against a file
name, reading the spliced prefix literally (the service splices it into the
pattern unescaped; this model is its meaning when the prefix contains no regex
special character).  Returns the `parseInt` value of the digit capture. -/
def versionPatternMatch (pfx fileName : String) : Option Nat :=
  match dropPrefixL pfx.data fileName.data with
  | none => none
  | some rest =>
    match rest with
    | 'C' :: r =>
      let ds := r.takeWhile (fun c => c.isDigit)
      let tail := r.dropWhile (fun c => c.isDigit)
      if ds.isEmpty then none
      else if tail = ".canvas".data then some (parseDigits ds) else none
    | _ => none

/-! ### Group registry -/

/-- First group whose member list contains the path, modelling
`CanvasSyncService.findGroupForFile`. -/
def findGroupForFile : List CanvasGroup → String → Option CanvasGroup
  | [], _ => none
  | g :: gs, filePath =>
    if filePath ∈ g.files then some g else findGroupForFile gs filePath

/-- Group-membership update after a derivation, modelling
`CanvasSyncService.updateCanvasGroup`: the first group containing the source
gains the new file (refreshing `lastSync`) unless it already lists it;
with no containing group, a fresh two-member group is appended. -/
def updateCanvasGroup : List CanvasGroup → String → String → Nat → List CanvasGroup
  | [], sourceFilePath, newFilePath, now =>
    [{ files := [sourceFilePath, newFilePath], lastSync := now }]
  | g :: gs, sourceFilePath, newFilePath, now =>
    if sourceFilePath ∈ g.files then
      (if newFilePath ∈ g.files then g
       else { files := g.files ++ [newFilePath], lastSync := now }) :: gs
    else g :: updateCanvasGroup gs sourceFilePath newFilePath now

/-- Refresh `lastSync` on the first group containing the path, modelling the
`group.lastSync = Date.now()` assignment in `executeOperation` (the group is
the one `findGroupForFile` returned). -/
def setLastSync : List CanvasGroup → String → Nat → List CanvasGroup
  | [], _, _ => []
  | g :: gs, filePath, now =>
    if filePath ∈ g.files then { g with lastSync := now } :: gs
    else g :: setLastSync gs filePath now

/-! ### Node and edge handlers -/

/-- Lookup in the `nodes` association, modelling `canvasData.nodes[id]`. -/
def lookupNode : List (String × CanvasNodeData) → String → Option CanvasNodeData
  | [], _ => none
  | (k, nd) :: rest, q => if k = q then some nd else lookupNode rest q

/-- Keyed insert, modelling `canvasData.nodes[nodeData.id] = nodeData`: an
existing key is overwritten in place, a new key is appended. -/
def insertNode : List (String × CanvasNodeData) → String → CanvasNodeData →
    List (String × CanvasNodeData)
  | [], k, nd => [(k, nd)]
  | (k0, nd0) :: rest, k, nd =>
    if k0 = k then (k, nd) :: rest else (k0, nd0) :: insertNode rest k nd

/-- Handler for `CreateNode`, modelling `handleCreateNode`. -/
def handleCreateNode (canvasData : CanvasData) (nodeData : CanvasNodeData) : CanvasData :=
  { canvasData with nodes := insertNode canvasData.nodes nodeData.id nodeData }

/-- Handler for `DeleteNode`, modelling `handleDeleteNode`: `delete` removes
the keyed entry (JS object keys are unique, so filtering the key out is one
entry), and every edge touching the node is filtered away. -/
def handleDeleteNode (canvasData : CanvasData) (nodeId : String) : CanvasData :=
  { nodes := canvasData.nodes.filter (fun kv => kv.1 ≠ nodeId),
    edges := canvasData.edges.filter (fun edge =>
      edge.fromNode ≠ nodeId ∧ edge.toNode ≠ nodeId) }

/-- In-place text assignment `canvasData.nodes[nodeId].text = newText` on the
(unique) entry holding the key; entries with other keys stay untouched. -/
def retextNode : List (String × CanvasNodeData) → String → String →
    List (String × CanvasNodeData)
  | [], _, _ => []
  | (k, nd) :: rest, nodeId, newText =>
    if k = nodeId then (k, { nd with text := some newText }) :: rest
    else (k, nd) :: retextNode rest nodeId newText

/-- Handler for `UpdateNodeText`, modelling `handleUpdateNodeText`: the text
of the keyed node is replaced when the key is present, otherwise nothing
happens. -/
def handleUpdateNodeText (canvasData : CanvasData) (nodeId newText : String) : CanvasData :=
  match lookupNode canvasData.nodes nodeId with
  | none => canvasData
  | some _ =>
    { canvasData with nodes := retextNode canvasData.nodes nodeId newText }

/-- Dispatch on the operation tag, modelling the `switch` in
`executeOperation`. -/
def applyOperation (canvasData : CanvasData) : OpData → CanvasData
  | OpData.createNode nd => handleCreateNode canvasData nd
  | OpData.deleteNode nid => handleDeleteNode canvasData nid
  | OpData.updateNodeText nid txt => handleUpdateNodeText canvasData nid txt

/-! ### Derivation: `createNewCanvasView` -/

/-- Body of the member-scan loop in `createNewCanvasView` (lines 66-73): raise
the running maximum by the member's matched version number, if its file name
matches the scan pattern. -/
def scanMember (pfx : String) (mv : Nat) (filePath : String) : Nat :=
  match versionPatternMatch pfx (lastComponent filePath) with
  | some fileVersion => max mv fileVersion
  | none => mv

/-- New file name chosen by `createNewCanvasView` from the stripped base name
(continued): the versioned branch folds `scanMember` over the group members
starting from the source's own number. -/
def computeNewFileName (groups : List CanvasGroup) (sourceFilePath baseName : String) :
    String :=
  match versionedMatch baseName with
  | some (baseNameWithoutNumber, n) =>
    let version :=
      match findGroupForFile groups sourceFilePath with
      | some group =>
        let maxVersion := group.files.foldl (scanMember baseNameWithoutNumber) n
        maxVersion + 1
      | none => n + 1
    baseNameWithoutNumber ++ "C" ++ toString version ++ ".canvas"
  | none => baseName ++ "C1.canvas"

/-- New file name for a source path: the base name is
`sourceFile.name.replace('.canvas', '')` (first occurrence only). -/
def newFileNameFor (groups : List CanvasGroup) (sourceFilePath : String) : String :=
  computeNewFileName groups sourceFilePath
    (replaceFirst (lastComponent sourceFilePath) ".canvas" "")

/-- New file path, modelling
`sourceFile.path.replace(sourceFile.name, newFileName)` — again a
first-occurrence replacement inside the full path. -/
def newFilePathFor (groups : List CanvasGroup) (sourceFilePath : String) : String :=
  replaceFirst sourceFilePath (lastComponent sourceFilePath)
    (newFileNameFor groups sourceFilePath)

/-- Result of `createNewCanvasView`: the returned path (`null` on failure)
together with the group registry and vault after the call. -/
structure DeriveResult where
  newPath : Option String
  groups : List CanvasGroup
  vault : Vault
deriving DecidableEq, Repr

/-- Derivation of a linked document, modelling
`CanvasSyncService.createNewCanvasView`.  Failure paths (source not a regular
file, source content unparseable, `vault.create` collision) are caught by the
surrounding `try` and return `null` with no state change; on success the
source content is copied byte-identically to the new path and the group
registry is updated. -/
def createNewCanvasView (groups : List CanvasGroup) (vault : Vault) (now : Nat)
    (sourceFilePath : String) : DeriveResult :=
  match lookupVault vault sourceFilePath with
  | some (VaultEntry.file content) =>
    match content with
    | FileContent.unparseable _ => { newPath := none, groups := groups, vault := vault }
    | FileContent.canvas _ =>
      let newFilePath := newFilePathFor groups sourceFilePath
      match lookupVault vault newFilePath with
      | some _ => { newPath := none, groups := groups, vault := vault }
      | none =>
        { newPath := some newFilePath,
          groups := updateCanvasGroup groups sourceFilePath newFilePath now,
          vault := vault ++ [(newFilePath, VaultEntry.file content)] }
  | _ => { newPath := none, groups := groups, vault := vault }

/-! ### Propagation: `executeOperation` -/

/-- One step of the target loop body in `executeOperation`: the source file is
skipped, a path that does not resolve to a regular file is skipped with a
warning, unparseable content raises inside the per-target `try` and is
skipped, and otherwise the edited document is written back.  The Boolean
records whether a write happened. -/
def syncTargetW (sourceFile : String) (op : OpData) (v : Vault) (filePath : String) :
    Vault × Bool :=
  if filePath = sourceFile then (v, false)
  else
    match lookupVault v filePath with
    | some (VaultEntry.file (FileContent.canvas canvasData)) =>
      (modifyVault v filePath (FileContent.canvas (applyOperation canvasData op)), true)
    | _ => (v, false)

/-- Vault after one target-loop step. -/
def syncTarget (sourceFile : String) (op : OpData) (v : Vault) (filePath : String) : Vault :=
  (syncTargetW sourceFile op v filePath).1

/-- Execution of one operation, modelling
`CanvasSyncService.executeOperation`: with no containing group nothing
happens; otherwise the containing group's `lastSync` is set to now and the
operation is applied to the group's members in list order. -/
def executeOperation (groups : List CanvasGroup) (vault : Vault) (now : Nat)
    (operation : Operation) : List CanvasGroup × Vault :=
  match findGroupForFile groups operation.sourceFile with
  | none => (groups, vault)
  | some group =>
    (setLastSync groups operation.sourceFile now,
     group.files.foldl (syncTarget operation.sourceFile operation.op) vault)

/-! ### The queue engine: `processOperation`

`processOperation` pushes the operation onto `operationQueue` and returns at
once when `processingOperations` is already set; otherwise it sets the flag
and drains the queue, clearing the flag when the queue empties.  JavaScript
is single threaded, so steps of the drain loop interleave with further
`processOperation` calls only at `await` points.  The engine below is that
transition system: a `submit` event is a `processOperation` call, and a
`tick` event is the next scheduled step of the in-flight drain loop (start
the next queued operation, apply it to one more target, finish it, or clear
the flag).  Each queued operation carries its submission sequence number and
`writes` logs `(sequence number, target path)` for every performed write,
so ordering claims are about the log. -/

/-- State of the engine: the queue, the `processingOperations` flag, the
operation currently being executed with its remaining target list, the
registry and vault, the write log, the next submission number and a clock
supplying `Date.now()`. -/
structure EngineState where
  queue : List (Nat × Operation)
  processing : Bool
  current : Option ((Nat × Operation) × List String)
  groups : List CanvasGroup
  vault : Vault
  writes : List (Nat × String)
  nextSeq : Nat
  time : Nat
deriving DecidableEq, Repr

/-- A `processOperation` call, modelling lines 134-143: push onto the queue;
when the flag is already set this is all, otherwise the flag is set and the
drain loop becomes active (its steps are delivered as `tick` events). -/
def submitOperation (s : EngineState) (op : Operation) : EngineState :=
  { s with
      queue := s.queue ++ [(s.nextSeq, op)],
      processing := true,
      nextSeq := s.nextSeq + 1,
      time := s.time + 1 }

/-- One scheduled step of the in-flight drain loop.  With targets remaining
in the current operation, the next target is handled by the loop body of
`executeOperation`; with none remaining the operation is finished; with no
current operation the next queued operation is started (resolving its group,
refreshing `lastSync` and snapshotting the member list — an ungrouped source
is discarded); with an empty queue the flag is cleared. -/
def engineTick (s : EngineState) : EngineState :=
  if s.processing then
    match s.current with
    | some (ko, filePath :: rest) =>
      let result := syncTargetW ko.2.sourceFile ko.2.op s.vault filePath
      { s with
          current := some (ko, rest),
          vault := result.1,
          writes := if result.2 then s.writes ++ [(ko.1, filePath)] else s.writes,
          time := s.time + 1 }
    | some (_, []) => { s with current := none, time := s.time + 1 }
    | none =>
      match s.queue with
      | ko :: rest =>
        match findGroupForFile s.groups ko.2.sourceFile with
        | none => { s with queue := rest, time := s.time + 1 }
        | some group =>
          { s with
              queue := rest,
              groups := setLastSync s.groups ko.2.sourceFile s.time,
              current := some (ko, group.files),
              time := s.time + 1 }
      | [] => { s with processing := false, time := s.time + 1 }
  else s

/-- External events: a `processOperation` call, or the next step of the
in-flight drain loop. -/
inductive EngineEvent
  | submit (op : Operation)
  | tick
deriving DecidableEq, Repr

/-- Step on one event. -/
def engineStep (s : EngineState) : EngineEvent → EngineState
  | EngineEvent.submit op => submitOperation s op
  | EngineEvent.tick => engineTick s

/-- Fresh engine over a registry and a vault: empty queue, flag clear. -/
def engineInit (groups : List CanvasGroup) (vault : Vault) : EngineState :=
  { queue := [], processing := false, current := none, groups := groups,
    vault := vault, writes := [], nextSeq := 0, time := 0 }

/-- Run of an event trace. -/
def engineRun (groups : List CanvasGroup) (vault : Vault) (evs : List EngineEvent) :
    EngineState :=
  evs.foldl engineStep (engineInit groups vault)

/-- Iterated drain steps with no interleaved submissions. -/
def engineTickN : Nat → EngineState → EngineState
  | 0, s => s
  | n + 1, s => engineTickN n (engineTick s)

/-! ### Association-list lemmas for the node handlers -/

/-- Filtering away a key makes it unfindable. -/
theorem lookupNode_erase_self (nodes : List (String × CanvasNodeData)) (nodeId : String) :
    lookupNode (nodes.filter (fun kv => kv.1 ≠ nodeId)) nodeId = none := by
  induction nodes with
  | nil => rfl
  | cons kv rest ih =>
    obtain ⟨k0, nd0⟩ := kv
    rw [List.filter_cons]
    by_cases h : k0 = nodeId
    · simpa [h] using ih
    · simpa [lookupNode, h] using ih

/-- Filtering away a different key leaves a lookup unchanged. -/
theorem lookupNode_erase_other (nodes : List (String × CanvasNodeData))
    (nodeId k : String) (hk : k ≠ nodeId) :
    lookupNode (nodes.filter (fun kv => kv.1 ≠ nodeId)) k = lookupNode nodes k := by
  induction nodes with
  | nil => rfl
  | cons kv rest ih =>
    obtain ⟨k0, nd0⟩ := kv
    rw [List.filter_cons]
    by_cases h : k0 = nodeId
    · subst h
      have hne : k0 ≠ k := fun hc => hk hc.symm
      simpa [lookupNode, hne] using ih
    · by_cases h2 : k0 = k
      · subst h2
        simp [lookupNode, h]
      · simpa [lookupNode, h, h2] using ih

/-- Rewriting the text of the keyed node changes that key's binding. -/
theorem lookupNode_retext_self (nodes : List (String × CanvasNodeData))
    (nodeId newText : String) (nd : CanvasNodeData)
    (h : lookupNode nodes nodeId = some nd) :
    lookupNode (retextNode nodes nodeId newText) nodeId
      = some { nd with text := some newText } := by
  induction nodes with
  | nil => simp [lookupNode] at h
  | cons kv rest ih =>
    obtain ⟨k0, nd0⟩ := kv
    by_cases hk : k0 = nodeId
    · subst hk
      rw [lookupNode, if_pos rfl] at h
      cases h
      simp [retextNode, lookupNode]
    · rw [lookupNode, if_neg hk] at h
      simp [retextNode, lookupNode, hk, ih h]

/-- Rewriting the text of the keyed node leaves other keys' bindings alone. -/
theorem lookupNode_retext_other (nodes : List (String × CanvasNodeData))
    (nodeId newText k : String) (hk : k ≠ nodeId) :
    lookupNode (retextNode nodes nodeId newText) k = lookupNode nodes k := by
  induction nodes with
  | nil => rfl
  | cons kv rest ih =>
    obtain ⟨k0, nd0⟩ := kv
    by_cases h : k0 = nodeId
    · subst h
      have hne : k0 ≠ k := fun hc => hk hc.symm
      simp [retextNode, lookupNode, hne]
    · by_cases h2 : k0 = k
      · subst h2
        simp [retextNode, lookupNode, h]
      · simp [retextNode, lookupNode, h, h2, ih]

/-! ### Claim C5 -/

/-- C5: applying `DeleteNode(id)` removes the node keyed `id`, removes exactly
the edges whose `fromNode` or `toNode` equals `id`, and leaves every other
node binding unchanged. -/
theorem c5_delete_cleans_edges (canvasData : CanvasData) (nodeId : String) :
    lookupNode (handleDeleteNode canvasData nodeId).nodes nodeId = none ∧
    (∀ k, k ≠ nodeId →
      lookupNode (handleDeleteNode canvasData nodeId).nodes k
        = lookupNode canvasData.nodes k) ∧
    (∀ e, e ∈ (handleDeleteNode canvasData nodeId).edges ↔
      (e ∈ canvasData.edges ∧ e.fromNode ≠ nodeId ∧ e.toNode ≠ nodeId)) := by
  refine ⟨lookupNode_erase_self _ _, fun k hk => lookupNode_erase_other _ _ _ hk, fun e => ?_⟩
  simp [handleDeleteNode, List.mem_filter, and_assoc]

/-- Witness for C5 on a concrete document: deleting `n1` removes the node,
drops both incident edges, keeps the unrelated edge and keeps `n2`. -/
theorem c5_delete_cleans_edges_witness :
    lookupNode (handleDeleteNode
      ⟨[("n1", ⟨"n1", CanvasNodeType.text, some "a", none, none, none, none, none, 0, 0⟩),
        ("n2", ⟨"n2", CanvasNodeType.text, some "b", none, none, none, none, none, 1, 1⟩)],
       [⟨"e1", "n1", "n2"⟩, ⟨"e2", "n2", "n1"⟩, ⟨"e3", "n2", "n2"⟩]⟩ "n1").nodes "n1" = none ∧
    lookupNode (handleDeleteNode
      ⟨[("n1", ⟨"n1", CanvasNodeType.text, some "a", none, none, none, none, none, 0, 0⟩),
        ("n2", ⟨"n2", CanvasNodeType.text, some "b", none, none, none, none, none, 1, 1⟩)],
       [⟨"e1", "n1", "n2"⟩, ⟨"e2", "n2", "n1"⟩, ⟨"e3", "n2", "n2"⟩]⟩ "n1").nodes "n2"
      = lookupNode
      [("n1", ⟨"n1", CanvasNodeType.text, some "a", none, none, none, none, none, 0, 0⟩),
       ("n2", ⟨"n2", CanvasNodeType.text, some "b", none, none, none, none, none, 1, 1⟩)] "n2" ∧
    ((⟨"e3", "n2", "n2"⟩ : CanvasEdge) ∈ (handleDeleteNode
      ⟨[("n1", ⟨"n1", CanvasNodeType.text, some "a", none, none, none, none, none, 0, 0⟩),
        ("n2", ⟨"n2", CanvasNodeType.text, some "b", none, none, none, none, none, 1, 1⟩)],
       [⟨"e1", "n1", "n2"⟩, ⟨"e2", "n2", "n1"⟩, ⟨"e3", "n2", "n2"⟩]⟩ "n1").edges ↔
      ((⟨"e3", "n2", "n2"⟩ : CanvasEdge)
          ∈ [(⟨"e1", "n1", "n2"⟩ : CanvasEdge), ⟨"e2", "n2", "n1"⟩, ⟨"e3", "n2", "n2"⟩] ∧
        ("n2" : String) ≠ "n1" ∧ ("n2" : String) ≠ "n1")) := by
  refine ⟨(c5_delete_cleans_edges _ "n1").1, ?_, ?_⟩
  · exact (c5_delete_cleans_edges _ "n1").2.1 "n2" (by decide)
  · exact (c5_delete_cleans_edges
      ⟨[("n1", ⟨"n1", CanvasNodeType.text, some "a", none, none, none, none, none, 0, 0⟩),
        ("n2", ⟨"n2", CanvasNodeType.text, some "b", none, none, none, none, none, 1, 1⟩)],
       [⟨"e1", "n1", "n2"⟩, ⟨"e2", "n2", "n1"⟩, ⟨"e3", "n2", "n2"⟩]⟩ "n1").2.2 ⟨"e3", "n2", "n2"⟩

/-! ### Claim C9 -/

/-- C9: applying `UpdateNodeText(id, text)` replaces the text payload of the
node keyed `id` when present (leaving other node bindings and the edges
unchanged); when the key is absent the document is returned entirely
unchanged. -/
theorem c9_update_text_or_noop (canvasData : CanvasData) (nodeId newText : String) :
    (∀ nd, lookupNode canvasData.nodes nodeId = some nd →
      lookupNode (handleUpdateNodeText canvasData nodeId newText).nodes nodeId
          = some { nd with text := some newText } ∧
      (∀ k, k ≠ nodeId →
        lookupNode (handleUpdateNodeText canvasData nodeId newText).nodes k
            = lookupNode canvasData.nodes k) ∧
      (handleUpdateNodeText canvasData nodeId newText).edges = canvasData.edges) ∧
    (lookupNode canvasData.nodes nodeId = none →
      handleUpdateNodeText canvasData nodeId newText = canvasData) := by
  constructor
  · intro nd h
    simp only [handleUpdateNodeText, h]
    exact ⟨lookupNode_retext_self _ _ _ _ h,
      fun k hk => lookupNode_retext_other _ _ _ _ hk, trivial⟩
  · intro h
    simp only [handleUpdateNodeText, h]

/-- Witness for C9 on a concrete document: updating `n1` rewrites its text and
keeps `n2` and the edges; updating the absent `n9` is the identity. -/
theorem c9_update_text_or_noop_witness :
    (lookupNode (handleUpdateNodeText
        ⟨[("n1", ⟨"n1", CanvasNodeType.text, some "a", none, none, none, none, none, 0, 0⟩)],
         [⟨"e1", "n1", "n1"⟩]⟩ "n1" "hi").nodes "n1"
      = some ⟨"n1", CanvasNodeType.text, some "hi", none, none, none, none, none, 0, 0⟩) ∧
    handleUpdateNodeText
        ⟨[("n1", ⟨"n1", CanvasNodeType.text, some "a", none, none, none, none, none, 0, 0⟩)],
         [⟨"e1", "n1", "n1"⟩]⟩ "n9" "hi"
      = ⟨[("n1", ⟨"n1", CanvasNodeType.text, some "a", none, none, none, none, none, 0, 0⟩)],
         [⟨"e1", "n1", "n1"⟩]⟩ := by
  constructor
  · exact ((c9_update_text_or_noop _ "n1" "hi").1
      ⟨"n1", CanvasNodeType.text, some "a", none, none, none, none, none, 0, 0⟩ (by decide)).1
  · exact (c9_update_text_or_noop _ "n9" "hi").2 (by decide)

/-! ### Claim C10 -/

/-- C10: executing an operation whose source document belongs to no linkage
group changes nothing: the registry and every document in the vault are left
exactly as they were (zero writes). -/
theorem c10_ungrouped_source_noop (groups : List CanvasGroup) (vault : Vault)
    (now : Nat) (operation : Operation)
    (h : findGroupForFile groups operation.sourceFile = none) :
    executeOperation groups vault now operation = (groups, vault) := by
  simp [executeOperation, h]

/-- Witness for C10: an operation sourced at an ungrouped document leaves a
concrete registry and vault untouched. -/
theorem c10_ungrouped_source_noop_witness :
    executeOperation [⟨["A.canvas", "B.canvas"], 5⟩]
      [("A.canvas", VaultEntry.file (FileContent.canvas ⟨[], []⟩)),
       ("C.canvas", VaultEntry.file (FileContent.canvas ⟨[], []⟩))]
      42 ⟨OpData.deleteNode "n1", "C.canvas"⟩
      = ([⟨["A.canvas", "B.canvas"], 5⟩],
         [("A.canvas", VaultEntry.file (FileContent.canvas ⟨[], []⟩)),
          ("C.canvas", VaultEntry.file (FileContent.canvas ⟨[], []⟩))]) :=
  c10_ungrouped_source_noop _ _ _ _ (by decide)

/-! ### Claim C4 -/

/-- C4: when derivation fails — the source path does not resolve to a regular
parseable document, or the computed target name is already taken — the call
returns no new path; and whenever no new path is returned, the vault (hence
any existing target document) and the group registry are completely
unchanged. -/
theorem c4_derivation_failure_atomic (groups : List CanvasGroup) (vault : Vault)
    (now : Nat) (sourceFilePath : String) :
    ((createNewCanvasView groups vault now sourceFilePath).newPath = none →
      (createNewCanvasView groups vault now sourceFilePath).vault = vault ∧
      (createNewCanvasView groups vault now sourceFilePath).groups = groups) ∧
    (lookupVault vault (newFilePathFor groups sourceFilePath) ≠ none →
      (createNewCanvasView groups vault now sourceFilePath).newPath = none) := by
  rcases hs : lookupVault vault sourceFilePath with _ | e
  · constructor
    · intro _
      constructor <;> simp [createNewCanvasView, hs]
    · intro _
      simp [createNewCanvasView, hs]
  · rcases e with c | _
    · rcases c with d | raw
      · rcases ht : lookupVault vault (newFilePathFor groups sourceFilePath) with _ | e2
        · constructor
          · intro h
            simp [createNewCanvasView, hs, ht] at h
          · intro hn
            exact absurd rfl hn
        · constructor
          · intro _
            constructor <;> simp [createNewCanvasView, hs, ht]
          · intro _
            simp [createNewCanvasView, hs, ht]
      · constructor
        · intro _
          constructor <;> simp [createNewCanvasView, hs]
        · intro _
          simp [createNewCanvasView, hs]
    · constructor
      · intro _
        constructor <;> simp [createNewCanvasView, hs]
      · intro _
        simp [createNewCanvasView, hs]

/-- Witness for C4: deriving from `AC1.canvas` in the group
`{AC1.canvas, AC2.canvas}` computes the target name `AC3.canvas`
(scan max(1,2)+1), which already exists in the vault — a real collision.
Both implications of the theorem are exercised with true antecedents: the
computed target is occupied, the call therefore returns no path, and the
registry and the vault (in particular the existing `AC3.canvas`) are left
exactly unchanged. -/
theorem c4_derivation_failure_atomic_witness :
    lookupVault
        [("AC1.canvas", VaultEntry.file (FileContent.canvas ⟨[], []⟩)),
         ("AC2.canvas", VaultEntry.file (FileContent.canvas ⟨[], []⟩)),
         ("AC3.canvas", VaultEntry.file (FileContent.canvas ⟨[("n1",
            ⟨"n1", CanvasNodeType.text, some "keep", none, none, none, none, none, 0, 0⟩)],
            []⟩))]
        (newFilePathFor [⟨["AC1.canvas", "AC2.canvas"], 3⟩] "AC1.canvas") ≠ none ∧
    (createNewCanvasView [⟨["AC1.canvas", "AC2.canvas"], 3⟩]
        [("AC1.canvas", VaultEntry.file (FileContent.canvas ⟨[], []⟩)),
         ("AC2.canvas", VaultEntry.file (FileContent.canvas ⟨[], []⟩)),
         ("AC3.canvas", VaultEntry.file (FileContent.canvas ⟨[("n1",
            ⟨"n1", CanvasNodeType.text, some "keep", none, none, none, none, none, 0, 0⟩)],
            []⟩))]
        9 "AC1.canvas").newPath = none ∧
    (createNewCanvasView [⟨["AC1.canvas", "AC2.canvas"], 3⟩]
        [("AC1.canvas", VaultEntry.file (FileContent.canvas ⟨[], []⟩)),
         ("AC2.canvas", VaultEntry.file (FileContent.canvas ⟨[], []⟩)),
         ("AC3.canvas", VaultEntry.file (FileContent.canvas ⟨[("n1",
            ⟨"n1", CanvasNodeType.text, some "keep", none, none, none, none, none, 0, 0⟩)],
            []⟩))]
        9 "AC1.canvas").vault
        = [("AC1.canvas", VaultEntry.file (FileContent.canvas ⟨[], []⟩)),
           ("AC2.canvas", VaultEntry.file (FileContent.canvas ⟨[], []⟩)),
           ("AC3.canvas", VaultEntry.file (FileContent.canvas ⟨[("n1",
              ⟨"n1", CanvasNodeType.text, some "keep", none, none, none, none, none, 0, 0⟩)],
              []⟩))] ∧
    (createNewCanvasView [⟨["AC1.canvas", "AC2.canvas"], 3⟩]
        [("AC1.canvas", VaultEntry.file (FileContent.canvas ⟨[], []⟩)),
         ("AC2.canvas", VaultEntry.file (FileContent.canvas ⟨[], []⟩)),
         ("AC3.canvas", VaultEntry.file (FileContent.canvas ⟨[("n1",
            ⟨"n1", CanvasNodeType.text, some "keep", none, none, none, none, none, 0, 0⟩)],
            []⟩))]
        9 "AC1.canvas").groups = [⟨["AC1.canvas", "AC2.canvas"], 3⟩] := by
  have h := c4_derivation_failure_atomic [⟨["AC1.canvas", "AC2.canvas"], 3⟩]
    [("AC1.canvas", VaultEntry.file (FileContent.canvas ⟨[], []⟩)),
     ("AC2.canvas", VaultEntry.file (FileContent.canvas ⟨[], []⟩)),
     ("AC3.canvas", VaultEntry.file (FileContent.canvas ⟨[("n1",
        ⟨"n1", CanvasNodeType.text, some "keep", none, none, none, none, none, 0, 0⟩)],
        []⟩))]
    9 "AC1.canvas"
  have hcoll : lookupVault
      [("AC1.canvas", VaultEntry.file (FileContent.canvas ⟨[], []⟩)),
       ("AC2.canvas", VaultEntry.file (FileContent.canvas ⟨[], []⟩)),
       ("AC3.canvas", VaultEntry.file (FileContent.canvas ⟨[("n1",
          ⟨"n1", CanvasNodeType.text, some "keep", none, none, none, none, none, 0, 0⟩)],
          []⟩))]
      (newFilePathFor [⟨["AC1.canvas", "AC2.canvas"], 3⟩] "AC1.canvas") ≠ none := by
    decide
  have hnone := h.2 hcoll
  exact ⟨hcoll, hnone, (h.1 hnone).1, (h.1 hnone).2⟩


/-! ### Registry lemmas for derivation -/

/-- With no containing group, the membership update appends exactly one new
two-member group. -/
theorem updateCanvasGroup_of_none (groups : List CanvasGroup) (src q : String) (now : Nat)
    (h : findGroupForFile groups src = none) :
    updateCanvasGroup groups src q now = groups ++ [⟨[src, q], now⟩] := by
  induction groups with
  | nil => rfl
  | cons g gs ih =>
    rw [findGroupForFile] at h
    by_cases hm : src ∈ g.files
    · rw [if_pos hm] at h
      cases h
    · rw [if_neg hm] at h
      simp [updateCanvasGroup, hm, ih h]

/-- With a containing group, the membership update keeps the number of groups,
makes some group contain both the source and the new path at an index that
already held a group containing the source, and leaves every other index
untouched. -/
theorem updateCanvasGroup_of_some (groups : List CanvasGroup) (src q : String) (now : Nat)
    (g : CanvasGroup) (h : findGroupForFile groups src = some g) :
    (updateCanvasGroup groups src q now).length = groups.length ∧
    ∃ (i : Nat) (g1 : CanvasGroup), (updateCanvasGroup groups src q now)[i]? = some g1 ∧
      src ∈ g1.files ∧ q ∈ g1.files ∧
      (∃ g0 : CanvasGroup, groups[i]? = some g0 ∧ src ∈ g0.files) ∧
      ∀ j, j ≠ i → (updateCanvasGroup groups src q now)[j]? = groups[j]? := by
  induction groups with
  | nil => cases h
  | cons g0 gs ih =>
    rw [findGroupForFile] at h
    by_cases hm : src ∈ g0.files
    · constructor
      · by_cases hq : q ∈ g0.files <;> simp [updateCanvasGroup, hm, hq]
      · by_cases hq : q ∈ g0.files
        · refine ⟨0, g0, ?_, hm, hq, ⟨g0, by simp, hm⟩, ?_⟩
          · simp [updateCanvasGroup, hm, hq]
          · intro j hj
            cases j with
            | zero => exact absurd rfl hj
            | succ j2 => simp [updateCanvasGroup, hm]
        · refine ⟨0, ⟨g0.files ++ [q], now⟩, ?_, ?_, ?_, ⟨g0, by simp, hm⟩, ?_⟩
          · simp [updateCanvasGroup, hm, hq]
          · exact List.mem_append_left _ hm
          · simp
          · intro j hj
            cases j with
            | zero => exact absurd rfl hj
            | succ j2 => simp [updateCanvasGroup, hm]
    · rw [if_neg hm] at h
      obtain ⟨hlen, i, g1, hg1, hsrc, hq, ⟨g2, hg2, hsrc2⟩, hrest⟩ := ih h
      constructor
      · simp [updateCanvasGroup, hm, hlen]
      · refine ⟨i + 1, g1, ?_, hsrc, hq, ⟨g2, by simpa using hg2, hsrc2⟩, ?_⟩
        · simp [updateCanvasGroup, hm, hg1]
        · intro j hj
          cases j with
          | zero => simp [updateCanvasGroup, hm]
          | succ j2 =>
            have hji : j2 ≠ i := fun hc => hj (by rw [hc])
            simp [updateCanvasGroup, hm, hrest j2 hji]

/-- A successful derivation returns the computed path, and its registry is the
result of `updateCanvasGroup` on that path. -/
theorem createNewCanvasView_newPath_some (groups : List CanvasGroup) (vault : Vault)
    (now : Nat) (src q : String)
    (h : (createNewCanvasView groups vault now src).newPath = some q) :
    q = newFilePathFor groups src ∧
    (createNewCanvasView groups vault now src).groups
      = updateCanvasGroup groups src q now := by
  rcases hs : lookupVault vault src with _ | e
  · simp [createNewCanvasView, hs] at h
  · rcases e with c | _
    · rcases c with d | raw
      · rcases ht : lookupVault vault (newFilePathFor groups src) with _ | e2
        · have h2 : newFilePathFor groups src = q := by
            have h3 := h
            simp only [createNewCanvasView, hs, ht] at h3
            exact Option.some.inj h3
          refine ⟨h2.symm, ?_⟩
          simp only [createNewCanvasView, hs, ht]
          rw [h2]
        · simp [createNewCanvasView, hs, ht] at h
      · simp [createNewCanvasView, hs] at h
    · simp [createNewCanvasView, hs] at h

/-! ### Claim C3 -/

/-- C3: a successful derivation from a source already in a group puts the new
path into the group that contained the source, keeping the total number of
groups unchanged and every other group untouched; a successful derivation
from an ungrouped source appends exactly one new group containing exactly the
source and the new path, stamped with the current time. -/
theorem c3_group_closure (groups : List CanvasGroup) (vault : Vault) (now : Nat)
    (src : String) :
    (∀ q g, (createNewCanvasView groups vault now src).newPath = some q →
      findGroupForFile groups src = some g →
      (createNewCanvasView groups vault now src).groups.length = groups.length ∧
      ∃ (i : Nat) (g1 : CanvasGroup), (createNewCanvasView groups vault now src).groups[i]? = some g1 ∧
        src ∈ g1.files ∧ q ∈ g1.files ∧
        (∃ g0 : CanvasGroup, groups[i]? = some g0 ∧ src ∈ g0.files) ∧
        ∀ j, j ≠ i →
          (createNewCanvasView groups vault now src).groups[j]? = groups[j]?) ∧
    (∀ q, (createNewCanvasView groups vault now src).newPath = some q →
      findGroupForFile groups src = none →
      (createNewCanvasView groups vault now src).groups = groups ++ [⟨[src, q], now⟩]) := by
  constructor
  · intro q g hq hg
    obtain ⟨hpath, hgroups⟩ := createNewCanvasView_newPath_some groups vault now src q hq
    rw [hgroups]
    exact updateCanvasGroup_of_some groups src q now g hg
  · intro q hq hg
    obtain ⟨hpath, hgroups⟩ := createNewCanvasView_newPath_some groups vault now src q hq
    rw [hgroups]
    exact updateCanvasGroup_of_none groups src q now hg

/-- Witness for C3: deriving `AC4.canvas` inside an existing two-member group
keeps one group and extends it; deriving `NotesC1.canvas` from an ungrouped
source appends exactly the group holding the pair. -/
theorem c3_group_closure_witness :
    ((createNewCanvasView [⟨["AC1.canvas", "AC3.canvas"], 0⟩]
        [("AC1.canvas", VaultEntry.file (FileContent.canvas ⟨[], []⟩))]
        9 "AC1.canvas").groups.length = 1 ∧
      ∃ (i : Nat) (g1 : CanvasGroup), (createNewCanvasView [⟨["AC1.canvas", "AC3.canvas"], 0⟩]
          [("AC1.canvas", VaultEntry.file (FileContent.canvas ⟨[], []⟩))]
          9 "AC1.canvas").groups[i]? = some g1 ∧
        "AC1.canvas" ∈ g1.files ∧ "AC4.canvas" ∈ g1.files ∧
        (∃ g0 : CanvasGroup, [(⟨["AC1.canvas", "AC3.canvas"], 0⟩ : CanvasGroup)][i]? = some g0 ∧
          "AC1.canvas" ∈ g0.files) ∧
        ∀ j, j ≠ i →
          (createNewCanvasView [⟨["AC1.canvas", "AC3.canvas"], 0⟩]
            [("AC1.canvas", VaultEntry.file (FileContent.canvas ⟨[], []⟩))]
            9 "AC1.canvas").groups[j]?
            = [(⟨["AC1.canvas", "AC3.canvas"], 0⟩ : CanvasGroup)][j]?) ∧
    (createNewCanvasView []
        [("Notes.canvas", VaultEntry.file (FileContent.canvas ⟨[], []⟩))]
        9 "Notes.canvas").groups
      = [] ++ [⟨["Notes.canvas", "NotesC1.canvas"], 9⟩] := by
  constructor
  · have h1 := (c3_group_closure [⟨["AC1.canvas", "AC3.canvas"], 0⟩]
      [("AC1.canvas", VaultEntry.file (FileContent.canvas ⟨[], []⟩))]
      9 "AC1.canvas").1 "AC4.canvas" ⟨["AC1.canvas", "AC3.canvas"], 0⟩
      (by decide) (by decide)
    exact h1
  · exact (c3_group_closure []
      [("Notes.canvas", VaultEntry.file (FileContent.canvas ⟨[], []⟩))]
      9 "Notes.canvas").2 "NotesC1.canvas" (by decide) (by decide)

/-! ### Claim C8 -/

/-- Refreshing `lastSync` rewrites exactly one index: one that held a group
containing the path, which keeps its member list and gets the new stamp. -/
theorem setLastSync_spec (groups : List CanvasGroup) (src : String) (now : Nat)
    (g : CanvasGroup) (h : findGroupForFile groups src = some g) :
    ∃ (i : Nat) (g0 : CanvasGroup), groups[i]? = some g0 ∧ src ∈ g0.files ∧
      (setLastSync groups src now)[i]? = some { g0 with lastSync := now } ∧
      ∀ j, j ≠ i → (setLastSync groups src now)[j]? = groups[j]? := by
  induction groups with
  | nil => cases h
  | cons g0 gs ih =>
    rw [findGroupForFile] at h
    by_cases hm : src ∈ g0.files
    · refine ⟨0, g0, by simp, hm, ?_, ?_⟩
      · simp [setLastSync, hm]
      · intro j hj
        cases j with
        | zero => exact absurd rfl hj
        | succ j2 => simp [setLastSync, hm]
    · rw [if_neg hm] at h
      obtain ⟨i, g2, hg2, hsrc, hset, hrest⟩ := ih h
      refine ⟨i + 1, g2, by simpa using hg2, hsrc, ?_, ?_⟩
      · simp [setLastSync, hm, hset]
      · intro j hj
        cases j with
        | zero => simp [setLastSync, hm]
        | succ j2 =>
          have hji : j2 ≠ i := fun hc => hj (by rw [hc])
          simp [setLastSync, hm, hrest j2 hji]

/-- C8 counterexample: executing an operation on group `{A, B}` when target
`B` cannot be loaded performs no successful write at all (the vault is
returned unchanged), yet `lastSync` jumps from 5 to the current time 99 — so
`lastSync` is not the time of the most recent successfully-applied
propagation. -/
theorem c8_counterexample :
    executeOperation [⟨["A.canvas", "B.canvas"], 5⟩]
      [("A.canvas", VaultEntry.file (FileContent.canvas ⟨[], []⟩))]
      99 ⟨OpData.updateNodeText "n1" "hi", "A.canvas"⟩
      = ([⟨["A.canvas", "B.canvas"], 99⟩],
         [("A.canvas", VaultEntry.file (FileContent.canvas ⟨[], []⟩))]) ∧
    (99 : Nat) ≠ 5 := by
  decide

/-- C8 (amended): whenever an operation whose source lies in some group is
executed, the registry index holding that group gets `lastSync` set to the
current time (its member list unchanged) and all other indices are untouched —
regardless of whether any target write succeeded. -/
theorem c8_lastSync_set_on_processing (groups : List CanvasGroup) (vault : Vault)
    (now : Nat) (operation : Operation) (g : CanvasGroup)
    (h : findGroupForFile groups operation.sourceFile = some g) :
    ∃ (i : Nat) (g0 : CanvasGroup), groups[i]? = some g0 ∧ operation.sourceFile ∈ g0.files ∧
      (executeOperation groups vault now operation).1[i]?
          = some { g0 with lastSync := now } ∧
      ∀ j, j ≠ i →
        (executeOperation groups vault now operation).1[j]? = groups[j]? := by
  have h1 : (executeOperation groups vault now operation).1
      = setLastSync groups operation.sourceFile now := by
    simp [executeOperation, h]
  rw [h1]
  exact setLastSync_spec groups operation.sourceFile now g h

/-- Witness for the amended C8 on the counterexample scenario: index 0 keeps
its member list and is stamped 99. -/
theorem c8_lastSync_set_on_processing_witness :
    ∃ (i : Nat) (g0 : CanvasGroup), [(⟨["A.canvas", "B.canvas"], 5⟩ : CanvasGroup)][i]? = some g0 ∧
      "A.canvas" ∈ g0.files ∧
      (executeOperation [⟨["A.canvas", "B.canvas"], 5⟩]
        [("A.canvas", VaultEntry.file (FileContent.canvas ⟨[], []⟩))]
        99 ⟨OpData.updateNodeText "n1" "hi", "A.canvas"⟩).1[i]?
          = some { g0 with lastSync := 99 } ∧
      ∀ j, j ≠ i →
        (executeOperation [⟨["A.canvas", "B.canvas"], 5⟩]
          [("A.canvas", VaultEntry.file (FileContent.canvas ⟨[], []⟩))]
          99 ⟨OpData.updateNodeText "n1" "hi", "A.canvas"⟩).1[j]?
          = [(⟨["A.canvas", "B.canvas"], 5⟩ : CanvasGroup)][j]? :=
  c8_lastSync_set_on_processing [⟨["A.canvas", "B.canvas"], 5⟩]
    [("A.canvas", VaultEntry.file (FileContent.canvas ⟨[], []⟩))]
    99 ⟨OpData.updateNodeText "n1" "hi", "A.canvas"⟩
    ⟨["A.canvas", "B.canvas"], 5⟩ (by decide)

/-! ### String-algorithm lemmas -/

/-- A list is a Boolean prefix of itself followed by anything. -/
theorem isPrefixOf_append_self (l rest : List Char) : l.isPrefixOf (l ++ rest) = true := by
  induction l with
  | nil => simp [List.isPrefixOf]
  | cons c t ih => simp [List.isPrefixOf, ih]

/-- A Boolean prefix is no longer than the list. -/
theorem isPrefixOf_length_le (pat : List Char) :
    ∀ l, pat.isPrefixOf l = true → pat.length ≤ l.length := by
  induction pat with
  | nil => intro l h; simp
  | cons c t ih =>
    intro l h
    cases l with
    | nil => simp [List.isPrefixOf] at h
    | cons c2 t2 =>
      simp only [List.isPrefixOf, Bool.and_eq_true] at h
      simpa using ih t2 h.2

/-- Scanning a block whose characters all differ from the pattern's head finds
no occurrence inside the block. -/
theorem firstOccAux_append (hc : Char) (pat2 : List Char) :
    ∀ (u s : List Char) (i : Nat), (∀ c ∈ u, c ≠ hc) →
      firstOccAux (hc :: pat2) (u ++ s) i = firstOccAux (hc :: pat2) s (i + u.length) := by
  intro u
  induction u with
  | nil => intro s i _; simp
  | cons c u2 ih =>
    intro s i hu
    have hcne : c ≠ hc := hu c (List.mem_cons_self _ _)
    have hfalse : (hc :: pat2).isPrefixOf (c :: (u2 ++ s)) = false := by
      simp [List.isPrefixOf, Ne.symm hcne]
    rw [List.cons_append, firstOccAux, hfalse]
    simp only [Bool.false_eq_true, if_false]
    rw [ih s (i + 1) (fun c2 h2 => hu c2 (List.mem_cons_of_mem _ h2))]
    congr 1
    rw [List.length_cons]
    omega

/-- The scan reports position `i` when the pattern starts right there. -/
theorem firstOccAux_self (pat rest : List Char) (i : Nat) :
    firstOccAux pat (pat ++ rest) i = some i := by
  have hp : pat.isPrefixOf (pat ++ rest) = true := isPrefixOf_append_self pat rest
  cases hps : pat ++ rest with
  | nil => rw [firstOccAux]; rw [hps] at hp; simp [hp]
  | cons c t => rw [firstOccAux]; rw [hps] at hp; simp [hp]

/-- A reported occurrence really is one: the pattern is a prefix of the
remainder at the reported offset. -/
theorem firstOccAux_sound (pat : List Char) :
    ∀ (s : List Char) (i j : Nat), firstOccAux pat s i = some j →
      i ≤ j ∧ pat.isPrefixOf (s.drop (j - i)) = true := by
  intro s
  induction s with
  | nil =>
    intro i j h
    rw [firstOccAux] at h
    by_cases hp : pat.isPrefixOf ([] : List Char) = true
    · rw [if_pos hp] at h
      cases h
      exact ⟨Nat.le_refl _, by simpa using hp⟩
    · rw [if_neg hp] at h
      cases h
  | cons c t ih =>
    intro i j h
    rw [firstOccAux] at h
    by_cases hp : pat.isPrefixOf (c :: t) = true
    · rw [if_pos hp] at h
      cases h
      exact ⟨Nat.le_refl _, by simpa using hp⟩
    · rw [if_neg hp] at h
      obtain ⟨h1, h2⟩ := ih (i + 1) j h
      refine ⟨by omega, ?_⟩
      have h3 : j - i = (j - (i + 1)) + 1 := by omega
      rw [h3, List.drop_succ_cons]
      exact h2

/-- Replacing the first occurrence of a pattern that ends the list, whose head
character appears nowhere before it, strips exactly that suffix. -/
theorem replaceFirstL_append_self (hc : Char) (pat2 u : List Char)
    (hu : ∀ c ∈ u, c ≠ hc) :
    replaceFirstL (u ++ (hc :: pat2)) (hc :: pat2) [] = u := by
  unfold replaceFirstL
  rw [firstOccAux_append hc pat2 u (hc :: pat2) 0 hu]
  have h1 : firstOccAux (hc :: pat2) (hc :: pat2) (0 + u.length) = some (0 + u.length) := by
    have := firstOccAux_self (hc :: pat2) [] (0 + u.length)
    simpa using this
  rw [h1]
  simp only [Nat.zero_add]
  have h2 : u.length + (hc :: pat2).length = (u ++ (hc :: pat2)).length := by simp
  rw [h2, List.drop_length]
  simp [List.take_left]

/-- All-digit segments are taken whole by the digit scan, which stops at the
first non-digit. -/
theorem takeWhile_digits_append (xs : List Char) (y : Char) (ys : List Char)
    (hxs : ∀ c ∈ xs, c.isDigit = true) (hy : y.isDigit = false) :
    (xs ++ y :: ys).takeWhile (fun c => c.isDigit) = xs ∧
    (xs ++ y :: ys).dropWhile (fun c => c.isDigit) = y :: ys := by
  induction xs with
  | nil => simp [List.takeWhile_cons, List.dropWhile_cons, hy]
  | cons x xs2 ih =>
    have hx : x.isDigit = true := hxs x (List.mem_cons_self _ _)
    have ih2 := ih (fun c h => hxs c (List.mem_cons_of_mem _ h))
    simp [List.takeWhile_cons, List.dropWhile_cons, hx, ih2.1, ih2.2]

/-- Literal-prefix drop of the leading copy of the prefix. -/
theorem dropPrefixL_append (p rest : List Char) : dropPrefixL p (p ++ rest) = some rest := by
  induction p with
  | nil => rfl
  | cons c t ih => simp [dropPrefixL, ih]

/-- `versionedMatch` on a base name shaped `<pfx>C<digits>` extracts the
prefix and the digit value. -/
theorem versionedMatch_decomp (baseName pfx : String) (ds : List Char)
    (hp : pfx.data ≠ []) (hds : ds ≠ []) (hdig : ∀ c ∈ ds, c.isDigit = true)
    (hbn : baseName.data = pfx.data ++ 'C' :: ds) :
    versionedMatch baseName = some (pfx, parseDigits ds) := by
  have hrev : baseName.data.reverse = ds.reverse ++ 'C' :: pfx.data.reverse := by
    rw [hbn]
    simp
  have hdigr : ∀ c ∈ ds.reverse, c.isDigit = true := by
    intro c hcm
    exact hdig c (List.mem_reverse.mp hcm)
  have hC : ('C').isDigit = false := by decide
  obtain ⟨htake, hdrop⟩ := takeWhile_digits_append ds.reverse 'C' pfx.data.reverse hdigr hC
  have hne1 : ds.reverse.isEmpty = false := by
    cases hdsr : ds.reverse with
    | nil => exact absurd (by simpa using hdsr) hds
    | cons a t => rfl
  have hne2 : pfx.data.reverse.isEmpty = false := by
    cases hpr : pfx.data.reverse with
    | nil => exact absurd (by simpa using hpr) hp
    | cons a t => rfl
  rw [versionedMatch]
  rw [hrev, htake, hdrop]
  simp [hne1, hne2]

/-- `versionPatternMatch` accepts exactly the names shaped
`<pfx>C<digits>.canvas` and returns the digit value. -/
theorem versionPatternMatch_decomp (pfx fn : String) (ds : List Char) (hds : ds ≠ [])
    (hdig : ∀ c ∈ ds, c.isDigit = true)
    (hfn : fn.data = pfx.data ++ 'C' :: (ds ++ ".canvas".data)) :
    versionPatternMatch pfx fn = some (parseDigits ds) := by
  have hdot : ('.').isDigit = false := by decide
  have hcanvas : ".canvas".data = '.' :: "canvas".data := rfl
  obtain ⟨htake, hdrop⟩ := takeWhile_digits_append ds '.' "canvas".data hdig hdot
  have hne1 : ds.isEmpty = false := by
    cases hds2 : ds with
    | nil => exact absurd hds2 hds
    | cons a t => rfl
  have hsplit : pfx.data ++ 'C' :: (ds ++ ".canvas".data)
      = pfx.data ++ 'C' :: (ds ++ '.' :: "canvas".data) := by rw [hcanvas]
  rw [versionPatternMatch, hfn, hsplit, dropPrefixL_append]
  simp [htake, hdrop, hne1, hcanvas]

/-- The member-scan fold computes the same as folding the digit values when
every member matches. -/
theorem scanMember_fold_eq (pfx : String) (files : List String)
    (dss : List (List Char)) (a : Nat)
    (h : List.Forall₂ (fun fp ds =>
      versionPatternMatch pfx (lastComponent fp) = some (parseDigits ds)) files dss) :
    files.foldl (scanMember pfx) a = (dss.map parseDigits).foldl max a := by
  induction h generalizing a with
  | nil => rfl
  | @cons fp ds2 fps dss2 hrel htail ih =>
    rw [List.foldl_cons, List.map_cons, List.foldl_cons]
    have hstep : scanMember pfx a fp = max a (parseDigits ds2) := by
      rw [scanMember, hrel]
    rw [hstep]
    exact ih _

/-- Maximum of a list of naturals, the result of the member scan. -/
def listMax (l : List Nat) : Nat := l.foldl max 0

/-- Folding `max` from a seed is the seed joined with the list maximum. -/
theorem foldl_max_eq_max (l : List Nat) : ∀ a, l.foldl max a = max a (listMax l) := by
  induction l with
  | nil => intro a; simp [listMax]
  | cons x t ih =>
    intro a
    rw [listMax, List.foldl_cons, List.foldl_cons, ih (max a x), ih (max 0 x)]
    simp [Nat.zero_max, Nat.max_assoc]

/-- Every member is bounded by the list maximum. -/
theorem le_listMax_of_mem (l : List Nat) (a : Nat) (h : a ∈ l) : a ≤ listMax l := by
  induction l with
  | nil => cases h
  | cons x t ih =>
    rw [listMax, List.foldl_cons, foldl_max_eq_max t (max 0 x)]
    rcases List.mem_cons.mp h with h1 | h2
    · subst h1
      rw [Nat.zero_max]
      exact Nat.le_max_left _ _
    · exact Nat.le_trans (ih h2) (Nat.le_max_right _ _)

/-- Folding `max` from a member of the list yields the list maximum. -/
theorem foldl_max_of_mem (l : List Nat) (a : Nat) (h : a ∈ l) :
    l.foldl max a = listMax l := by
  rw [foldl_max_eq_max]
  exact Nat.max_eq_right (le_listMax_of_mem l a h)

/-- A pointwise-related list yields, for each left member, a related right
member. -/
theorem forall2_exists_of_mem {R : String → List Char → Prop} :
    ∀ {l1 : List String} {l2 : List (List Char)}, List.Forall₂ R l1 l2 →
      ∀ a ∈ l1, ∃ b ∈ l2, R a b := by
  intro l1 l2 h
  induction h with
  | nil => intro a ha; cases ha
  | cons hr ht ih =>
    intro a ha
    rcases List.mem_cons.mp ha with h1 | h2
    · subst h1
      exact ⟨_, List.mem_cons_self _ _, hr⟩
    · obtain ⟨b, hb, hrb⟩ := ih a h2
      exact ⟨b, List.mem_cons_of_mem _ hb, hrb⟩

/-! ### Claim C1 -/

/-- Characters with special meaning in a JS regular expression: the service
splices the captured prefix into `^<pfx>C(\d+)\.canvas$` unescaped, so the
scan only reads the prefix literally when it avoids these. -/
def regexSpecials : List Char :=
  ['\\', '^', '$', '.', '|', '?', '*', '+', '(', ')', '[', ']', '\x7b', '\x7d']

/-- A prefix the service may splice into its scan regex without changing the
pattern's meaning. -/
abbrev regexSafe (p : String) : Prop := ∀ c ∈ p.data, c ∉ regexSpecials

/-- C1 counterexample: the group members `a.canvasbC1.canvas` and
`a.canvasbC3.canvas` have versioned base names with prefix `a.canvasb` and
suffixes 1 and 3, so the claim demands the derived suffix 4 — name
`a.canvasbC4.canvas`.  The code instead strips the *first* occurrence of
`.canvas` from the name, destroying the versioned shape, and derives
`abC1.canvasC1.canvas`. -/
theorem c1_counterexample :
    (createNewCanvasView [⟨["a.canvasbC1.canvas", "a.canvasbC3.canvas"], 0⟩]
        [("a.canvasbC1.canvas", VaultEntry.file (FileContent.canvas ⟨[], []⟩))]
        7 "a.canvasbC1.canvas").newPath = some "abC1.canvasC1.canvas" ∧
    "abC1.canvasC1.canvas" ≠ "a.canvasbC4.canvas" := by decide

/-- C1 (amended): for a group whose members all have versioned names over one
shared nonempty prefix containing no regex-special character (in particular no
dot, so the `.canvas`-stripping and the unescaped regex splice behave as
intended), deriving from any member yields the file name
`<pfx>C<max(n1..nk)+1>.canvas`. -/
theorem c1_version_monotonic (groups : List CanvasGroup) (g : CanvasGroup)
    (src p : String) (dss : List (List Char))
    (hp : p.data ≠ [])
    (hsafe : regexSafe p)
    (hfind : findGroupForFile groups src = some g)
    (hmem : src ∈ g.files)
    (hall : List.Forall₂ (fun fp ds => ds ≠ [] ∧ (∀ c ∈ ds, c.isDigit = true) ∧
      (lastComponent fp).data = p.data ++ 'C' :: (ds ++ ".canvas".data)) g.files dss) :
    newFileNameFor groups src
      = p ++ "C" ++ toString (listMax (dss.map parseDigits) + 1) ++ ".canvas" := by
  obtain ⟨ds0, hds0mem, hds0ne, hds0dig, hdata⟩ := forall2_exists_of_mem hall src hmem
  have hdot : ∀ c ∈ p.data ++ 'C' :: ds0, c ≠ '.' := by
    intro c hcmem
    rcases List.mem_append.mp hcmem with h1 | h2
    · intro he
      subst he
      exact hsafe _ h1 (by decide)
    · rcases List.mem_cons.mp h2 with h3 | h4
      · subst h3
        decide
      · intro he
        subst he
        exact absurd (hds0dig _ h4) (by decide)
  have hbase : replaceFirst (lastComponent src) ".canvas" ""
      = (⟨p.data ++ 'C' :: ds0⟩ : String) := by
    have h1 : (lastComponent src).data = (p.data ++ 'C' :: ds0) ++ ".canvas".data := by
      rw [hdata]
      simp
    show (⟨replaceFirstL (lastComponent src).data ".canvas".data "".data⟩ : String) = _
    rw [h1]
    exact congrArg String.mk
      (replaceFirstL_append_self '.' "canvas".data (p.data ++ 'C' :: ds0) hdot)
  have hvm : versionedMatch (replaceFirst (lastComponent src) ".canvas" "")
      = some (p, parseDigits ds0) := by
    rw [hbase]
    exact versionedMatch_decomp _ p ds0 hp hds0ne hds0dig rfl
  have hall2 : List.Forall₂ (fun fp ds =>
      versionPatternMatch p (lastComponent fp) = some (parseDigits ds)) g.files dss := by
    refine List.Forall₂.imp ?_ hall
    intro fp ds hfd
    exact versionPatternMatch_decomp p (lastComponent fp) ds hfd.1 hfd.2.1 hfd.2.2
  have hn0mem : parseDigits ds0 ∈ dss.map parseDigits := List.mem_map_of_mem _ hds0mem
  simp only [newFileNameFor, computeNewFileName, hvm, hfind]
  rw [scanMember_fold_eq p g.files dss (parseDigits ds0) hall2]
  rw [foldl_max_of_mem _ _ hn0mem]

/-- Witness for the amended C1: deriving from `AC1.canvas` in the group
`{AC1.canvas, AC3.canvas}` names the new document with suffix
`max(1,3)+1 = 4`. -/
theorem c1_version_monotonic_witness :
    newFileNameFor [⟨["AC1.canvas", "AC3.canvas"], 0⟩] "AC1.canvas"
      = "A" ++ "C" ++ toString (listMax ([['1'], ['3']].map parseDigits) + 1) ++ ".canvas" :=
  c1_version_monotonic [⟨["AC1.canvas", "AC3.canvas"], 0⟩]
    ⟨["AC1.canvas", "AC3.canvas"], 0⟩ "AC1.canvas" "A" [['1'], ['3']]
    (by decide) (by decide) (by decide) (by decide)
    (List.Forall₂.cons ⟨by decide, by decide, by decide⟩
      (List.Forall₂.cons ⟨by decide, by decide, by decide⟩ List.Forall₂.nil))

/-! ### Claim C6 -/

/-- C6 counterexample: a file `Notes.canvas` inside a folder that is itself
named `Notes.canvas` (with a folder `NotesC1.canvas` present, so creation
succeeds).  The code replaces the *first* occurrence of the file name inside
the full path, producing `NotesC1.canvas/Notes.canvas`: not a sibling of the
source, and its final name is still `Notes.canvas`, not the claimed
`NotesC1.canvas`. -/
theorem c6_counterexample :
    (createNewCanvasView []
        [("Notes.canvas", VaultEntry.folder),
         ("Notes.canvas/Notes.canvas", VaultEntry.file (FileContent.canvas ⟨[], []⟩)),
         ("NotesC1.canvas", VaultEntry.folder)]
        0 "Notes.canvas/Notes.canvas").newPath = some "NotesC1.canvas/Notes.canvas" ∧
    lastComponent "NotesC1.canvas/Notes.canvas" ≠ "NotesC1.canvas" ∧
    "NotesC1.canvas/Notes.canvas" ≠ "Notes.canvas/NotesC1.canvas" := by decide

/-- C6 (amended): when the source's file name first occurs in its path as the
final component (true of every path whose ancestor directories do not contain
the file name as a substring), a successful derivation produces exactly the
sibling path: the directory part of the source followed by the computed new
file name; and when the stripped base name has no versioned match, that new
file name is `<baseName>C1.canvas`. -/
theorem c6_sibling_naming (groups : List CanvasGroup) (vault : Vault) (now : Nat)
    (src q : String)
    (hsucc : (createNewCanvasView groups vault now src).newPath = some q)
    (hocc : firstOccAux (lastComponent src).data src.data 0
        = some (src.data.length - (lastComponent src).data.length)) :
    q.data = src.data.take (src.data.length - (lastComponent src).data.length)
        ++ (newFileNameFor groups src).data ∧
    (versionedMatch (replaceFirst (lastComponent src) ".canvas" "") = none →
      newFileNameFor groups src
        = replaceFirst (lastComponent src) ".canvas" "" ++ "C1.canvas") := by
  obtain ⟨hq, -⟩ := createNewCanvasView_newPath_some groups vault now src q hsucc
  constructor
  · obtain ⟨-, hpre⟩ := firstOccAux_sound (lastComponent src).data src.data 0 _ hocc
    rw [Nat.sub_zero] at hpre
    have hlen := isPrefixOf_length_le _ _ hpre
    rw [List.length_drop] at hlen
    have hdrop : src.data.drop
        ((src.data.length - (lastComponent src).data.length)
          + (lastComponent src).data.length) = [] := by
      apply List.drop_eq_nil_of_le
      omega
    rw [hq]
    show replaceFirstL src.data (lastComponent src).data (newFileNameFor groups src).data
        = _
    rw [replaceFirstL, hocc]
    simp [hdrop]
    have hA : src.length = src.data.length := rfl
    have hB : (lastComponent src).length = (lastComponent src).data.length := rfl
    omega
  · intro hvm
    simp only [newFileNameFor, computeNewFileName, hvm]

/-- Witness for the amended C6: deriving from a top-level `Notes.canvas`
produces the sibling `NotesC1.canvas` through the naming fallback. -/
theorem c6_sibling_naming_witness :
    (("NotesC1.canvas" : String).data
        = ("Notes.canvas" : String).data.take
            (("Notes.canvas" : String).data.length
              - (lastComponent "Notes.canvas").data.length)
          ++ (newFileNameFor [] "Notes.canvas").data) ∧
    (versionedMatch (replaceFirst (lastComponent "Notes.canvas") ".canvas" "") = none →
      newFileNameFor [] "Notes.canvas"
        = replaceFirst (lastComponent "Notes.canvas") ".canvas" "" ++ "C1.canvas") :=
  c6_sibling_naming [] [("Notes.canvas", VaultEntry.file (FileContent.canvas ⟨[], []⟩))]
    0 "Notes.canvas" "NotesC1.canvas" (by decide) (by decide)

/-! ### Engine invariant: write order respects submission order -/

/-- Invariant of the engine: logged writes carry nondecreasing submission
numbers, queued numbers strictly increase and exceed every logged number, the
running operation's number bounds the log from above and the queue from
below, and everything stays below the next fresh number. -/
def engineInv (s : EngineState) : Prop :=
  List.Pairwise (· ≤ ·) (s.writes.map Prod.fst) ∧
  List.Pairwise (· < ·) (s.queue.map Prod.fst) ∧
  (∀ w ∈ s.writes.map Prod.fst, ∀ j ∈ s.queue.map Prod.fst, w < j) ∧
  (∀ w ∈ s.writes.map Prod.fst, w < s.nextSeq) ∧
  (∀ j ∈ s.queue.map Prod.fst, j < s.nextSeq) ∧
  (match s.current with
   | some (ko, _) =>
     (∀ w ∈ s.writes.map Prod.fst, w ≤ ko.1) ∧
     (∀ j ∈ s.queue.map Prod.fst, ko.1 < j) ∧ ko.1 < s.nextSeq
   | none => True)

/-- The invariant holds in a fresh engine. -/
theorem engineInv_init (groups : List CanvasGroup) (vault : Vault) :
    engineInv (engineInit groups vault) := by
  refine ⟨?_, ?_, ?_, ?_, ?_, ?_⟩ <;> simp [engineInit]

/-- Submission preserves the invariant: the new operation gets the largest
number so far. -/
theorem engineInv_submit (s : EngineState) (op : Operation) (h : engineInv s) :
    engineInv (submitOperation s op) := by
  obtain ⟨h1, h2, h3, h4, h5, h6⟩ := h
  have hq : (submitOperation s op).queue = s.queue ++ [(s.nextSeq, op)] := rfl
  have hw : (submitOperation s op).writes = s.writes := rfl
  have hc : (submitOperation s op).current = s.current := rfl
  have hn : (submitOperation s op).nextSeq = s.nextSeq + 1 := rfl
  unfold engineInv
  rw [hq, hw, hc, hn, List.map_append]
  refine ⟨h1, ?_, ?_, ?_, ?_, ?_⟩
  · rw [List.pairwise_append]
    refine ⟨h2, by simp, ?_⟩
    intro a ha b hb
    simp only [List.map_cons, List.map_nil, List.mem_singleton] at hb
    subst hb
    exact h5 a ha
  · intro w hw2 j hj
    rw [List.mem_append] at hj
    rcases hj with hj | hj
    · exact h3 w hw2 j hj
    · simp only [List.map_cons, List.map_nil, List.mem_singleton] at hj
      subst hj
      exact h4 w hw2
  · intro w hw2
    exact Nat.lt_succ_of_lt (h4 w hw2)
  · intro j hj
    rw [List.mem_append] at hj
    rcases hj with hj | hj
    · exact Nat.lt_succ_of_lt (h5 j hj)
    · simp only [List.map_cons, List.map_nil, List.mem_singleton] at hj
      subst hj
      exact Nat.lt_succ_self _
  · rcases hcur : s.current with _ | ⟨ko, targets⟩
    · trivial
    · have h6b : (∀ w ∈ s.writes.map Prod.fst, w ≤ ko.1) ∧
          (∀ j ∈ s.queue.map Prod.fst, ko.1 < j) ∧ ko.1 < s.nextSeq := by
        rw [hcur] at h6
        exact h6
      obtain ⟨ha, hb, hc2⟩ := h6b
      refine ⟨ha, ?_, Nat.lt_succ_of_lt hc2⟩
      intro j hj
      rw [List.mem_append] at hj
      rcases hj with hj | hj
      · exact hb j hj
      · simp only [List.map_cons, List.map_nil, List.mem_singleton] at hj
        subst hj
        exact hc2

/-- A drain step preserves the invariant. -/
theorem engineInv_tick (s : EngineState) (h : engineInv s) : engineInv (engineTick s) := by
  obtain ⟨q0, p0, c0, g0, v0, w0, n0, t0⟩ := s
  obtain ⟨h1, h2, h3, h4, h5, h6⟩ := h
  try dsimp only at h1 h2 h3 h4 h5 h6
  by_cases hp : p0 = true
  case neg =>
    have hp2 : p0 = false := by
      cases p0
      · rfl
      · exact absurd rfl hp
    subst hp2
    exact ⟨h1, h2, h3, h4, h5, h6⟩
  case pos =>
  subst hp
  rcases c0 with _ | ⟨ko, targets⟩
  · rcases q0 with _ | ⟨k1, qrest⟩
    · exact ⟨h1, h2, h3, h4, h5, trivial⟩
    · have h2q := h2
      rw [List.map_cons, List.pairwise_cons] at h2q
      have hmemq : k1.1 ∈ (k1 :: qrest).map Prod.fst := by
        rw [List.map_cons]
        exact List.mem_cons_self _ _
      have hrestmem : ∀ j ∈ qrest.map Prod.fst, j ∈ (k1 :: qrest).map Prod.fst := by
        intro j hj
        rw [List.map_cons]
        exact List.mem_cons_of_mem _ hj
      rcases hfg : findGroupForFile g0 k1.2.sourceFile with _ | g
      · simp only [engineTick]
        rw [hfg]
        unfold engineInv
        try dsimp only
        refine ⟨h1, h2q.2, ?_, h4, ?_, trivial⟩
        · intro w hw2 j hj
          exact h3 w hw2 j (hrestmem j hj)
        · intro j hj
          exact h5 j (hrestmem j hj)
      · simp only [engineTick]
        rw [hfg]
        unfold engineInv
        try dsimp only
        refine ⟨h1, h2q.2, ?_, h4, ?_, ?_⟩
        · intro w hw2 j hj
          exact h3 w hw2 j (hrestmem j hj)
        · intro j hj
          exact h5 j (hrestmem j hj)
        · refine ⟨?_, h2q.1, h5 _ hmemq⟩
          intro w hw2
          exact Nat.le_of_lt (h3 w hw2 _ hmemq)
  · obtain ⟨ha, hb, hc2⟩ := h6
    rcases targets with _ | ⟨fp, rest⟩
    · exact ⟨h1, h2, h3, h4, h5, trivial⟩
    · simp only [engineTick]
      rw [if_pos True.intro]
      by_cases hres : (syncTargetW ko.2.sourceFile ko.2.op v0 fp).2 = true
      · rw [if_pos hres]
        unfold engineInv
        try dsimp only
        refine ⟨?_, h2, ?_, ?_, h5, ?_⟩
        · rw [List.map_append, List.pairwise_append]
          refine ⟨h1, by simp, ?_⟩
          intro a haa b hbb
          simp only [List.map_cons, List.map_nil, List.mem_singleton] at hbb
          subst hbb
          exact ha a haa
        · intro w hw2 j hj
          rw [List.map_append, List.mem_append] at hw2
          rcases hw2 with hw2 | hw2
          · exact h3 w hw2 j hj
          · simp only [List.map_cons, List.map_nil, List.mem_singleton] at hw2
            subst hw2
            exact hb j hj
        · intro w hw2
          rw [List.map_append, List.mem_append] at hw2
          rcases hw2 with hw2 | hw2
          · exact h4 w hw2
          · simp only [List.map_cons, List.map_nil, List.mem_singleton] at hw2
            subst hw2
            exact hc2
        · refine ⟨?_, hb, hc2⟩
          intro w hw2
          rw [List.map_append, List.mem_append] at hw2
          rcases hw2 with hw2 | hw2
          · exact ha w hw2
          · simp only [List.map_cons, List.map_nil, List.mem_singleton] at hw2
            subst hw2
            exact Nat.le_refl _
      · rw [if_neg hres]
        exact ⟨h1, h2, h3, h4, h5, ⟨ha, hb, hc2⟩⟩

/-- Any event preserves the invariant. -/
theorem engineInv_step (s : EngineState) (e : EngineEvent) (h : engineInv s) :
    engineInv (engineStep s e) := by
  cases e with
  | submit op => exact engineInv_submit s op h
  | tick => exact engineInv_tick s h

/-- The invariant holds along any event trace. -/
theorem engineInv_foldl (evs : List EngineEvent) :
    ∀ s, engineInv s → engineInv (evs.foldl engineStep s) := by
  induction evs with
  | nil => intro s h; exact h
  | cons e t ih =>
    intro s h
    exact ih _ (engineInv_step s e h)

/-! ### Claim C2 -/

/-- C2: along every event trace (submissions interleaved arbitrarily with
drain-loop steps), the write log is ordered by submission number — no write on
behalf of a later-submitted operation ever precedes a write of an earlier one,
and all of an operation's writes are contiguous before the next one's; and a
submission made while the engine is draining only appends to the queue (and
bumps the counter and the clock): it performs no write, does not touch the
operation in flight, and leaves the engine draining, so the in-flight loop
picks the operation up. -/
theorem c2_fifo_single_drain (groups : List CanvasGroup) (vault : Vault)
    (evs : List EngineEvent) :
    List.Pairwise (· ≤ ·) ((engineRun groups vault evs).writes.map Prod.fst) ∧
    (∀ (s : EngineState) (op : Operation), s.processing = true →
      engineStep s (EngineEvent.submit op)
        = { s with queue := s.queue ++ [(s.nextSeq, op)],
                   nextSeq := s.nextSeq + 1, time := s.time + 1 }) := by
  constructor
  · exact (engineInv_foldl evs _ (engineInv_init groups vault)).1
  · intro s op hp
    obtain ⟨q0, p0, c0, g0, v0, w0, n0, t0⟩ := s
    subst hp
    rfl

/-- Witness for C2: a concrete trace with two submissions fully drained keeps
the log ordered, and a concrete submission into a draining engine only
enqueues. -/
theorem c2_fifo_single_drain_witness :
    List.Pairwise (· ≤ ·) ((engineRun [⟨["A.canvas", "B.canvas"], 0⟩]
      [("A.canvas", VaultEntry.file (FileContent.canvas ⟨[], []⟩)),
       ("B.canvas", VaultEntry.file (FileContent.canvas ⟨[], []⟩))]
      [EngineEvent.submit ⟨OpData.updateNodeText "n1" "x", "A.canvas"⟩,
       EngineEvent.tick,
       EngineEvent.submit ⟨OpData.deleteNode "n1", "A.canvas"⟩,
       EngineEvent.tick, EngineEvent.tick, EngineEvent.tick, EngineEvent.tick,
       EngineEvent.tick, EngineEvent.tick, EngineEvent.tick]).writes.map Prod.fst) ∧
    engineStep ⟨[], true, none, [], [], [], 5, 3⟩
        (EngineEvent.submit ⟨OpData.deleteNode "z", "C.canvas"⟩)
      = ⟨[(5, ⟨OpData.deleteNode "z", "C.canvas"⟩)], true, none, [], [], [], 6, 4⟩ := by
  constructor
  · exact (c2_fifo_single_drain _ _ _).1
  · exact (c2_fifo_single_drain [] [] []).2 ⟨[], true, none, [], [], [], 5, 3⟩
      ⟨OpData.deleteNode "z", "C.canvas"⟩ rfl

/-! ### Claim C7: per-target failure locality and liveness -/

/-- Step bound for one queued operation: start and finish plus one step per
member of its group. -/
def opCost (groups : List CanvasGroup) (operation : Operation) : Nat :=
  2 + (match findGroupForFile groups operation.sourceFile with
       | some g => g.files.length
       | none => 0)

/-- Termination measure of the drain loop. -/
def engineMeasure (s : EngineState) : Nat :=
  if s.processing then
    1 + (match s.current with
         | some (_, targets) => targets.length + 1
         | none => 0)
      + (s.queue.map (fun ko => opCost s.groups ko.2)).sum
  else 0

/-- Refreshing `lastSync` never changes which files a lookup finds. -/
theorem findGroupForFile_setLastSync (gs : List CanvasGroup) (fp : String) (t : Nat)
    (p : String) :
    (findGroupForFile (setLastSync gs fp t) p).map CanvasGroup.files
      = (findGroupForFile gs p).map CanvasGroup.files := by
  induction gs with
  | nil => rfl
  | cons g tail ih =>
    by_cases hm : fp ∈ g.files
    · by_cases hp2 : p ∈ g.files <;> simp [setLastSync, findGroupForFile, hm, hp2]
    · by_cases hp2 : p ∈ g.files <;> simp [setLastSync, findGroupForFile, hm, hp2, ih]

/-- Refreshing `lastSync` keeps every operation's step bound. -/
theorem opCost_setLastSync (gs : List CanvasGroup) (fp : String) (t : Nat)
    (operation : Operation) :
    opCost (setLastSync gs fp t) operation = opCost gs operation := by
  unfold opCost
  have h := findGroupForFile_setLastSync gs fp t operation.sourceFile
  rcases h1 : findGroupForFile (setLastSync gs fp t) operation.sourceFile with _ | g1 <;>
    rcases h2 : findGroupForFile gs operation.sourceFile with _ | g2 <;>
      rw [h1, h2] at h <;> simp at h <;> simp [h]

/-- Refreshing `lastSync` keeps the queued step bounds. -/
theorem map_opCost_setLastSync (gs : List CanvasGroup) (fp : String) (t : Nat)
    (q : List (Nat × Operation)) :
    q.map (fun ko => opCost (setLastSync gs fp t) ko.2)
      = q.map (fun ko => opCost gs ko.2) := by
  induction q with
  | nil => rfl
  | cons a tail ih => simp [opCost_setLastSync, ih]

/-- Every drain step strictly decreases the measure while the flag is set. -/
theorem engineMeasure_tick_lt (s : EngineState) (hp : s.processing = true) :
    engineMeasure (engineTick s) < engineMeasure s := by
  obtain ⟨q0, p0, c0, g0, v0, w0, n0, t0⟩ := s
  subst hp
  rcases c0 with _ | ⟨ko, targets⟩
  · rcases q0 with _ | ⟨k1, qrest⟩
    · simp [engineTick, engineMeasure]
    · rcases hfg : findGroupForFile g0 k1.2.sourceFile with _ | g
      · simp only [engineTick]
        rw [if_pos True.intro, hfg]
        simp [engineMeasure, opCost, hfg]
      · simp only [engineTick]
        rw [if_pos True.intro, hfg]
        have hoc : opCost g0 k1.2 = 2 + g.files.length := by
          rw [opCost, hfg]
        simp [engineMeasure, map_opCost_setLastSync, hoc]
        omega
  · rcases targets with _ | ⟨fp, rest⟩
    · simp [engineTick, engineMeasure]
    · simp only [engineTick]
      rw [if_pos True.intro]
      simp [engineMeasure]

/-- From any state, enough uninterrupted drain steps clear the flag. -/
theorem engineTickN_reaches_idle_aux :
    ∀ (m : Nat) (s : EngineState), engineMeasure s ≤ m →
      ∃ n, (engineTickN n s).processing = false := by
  intro m
  induction m with
  | zero =>
    intro s hm
    by_cases hp : s.processing = true
    · exfalso
      rw [engineMeasure, if_pos hp] at hm
      omega
    · exact ⟨0, Bool.eq_false_iff.mpr hp⟩
  | succ m ih =>
    intro s hm
    by_cases hp : s.processing = true
    · have hlt := engineMeasure_tick_lt s hp
      obtain ⟨n, hn⟩ := ih (engineTick s) (by omega)
      exact ⟨n + 1, hn⟩
    · exact ⟨0, Bool.eq_false_iff.mpr hp⟩

/-- C7: a target that cannot be loaded or parsed is skipped with no effect on
the vault, the write log, the queue or the registry — the loop simply moves
on to the remaining targets — and from any state the engine reaches Idle
(flag cleared) after finitely many drain steps: no failure halts it
permanently. -/
theorem c7_target_failure_local :
    (∀ (s : EngineState) (ko : Nat × Operation) (fp : String) (rest : List String),
      s.processing = true → s.current = some (ko, fp :: rest) →
      fp ≠ ko.2.sourceFile →
      (∀ c : CanvasData, lookupVault s.vault fp
          ≠ some (VaultEntry.file (FileContent.canvas c))) →
      (engineTick s).vault = s.vault ∧ (engineTick s).writes = s.writes ∧
      (engineTick s).queue = s.queue ∧ (engineTick s).groups = s.groups ∧
      (engineTick s).current = some (ko, rest) ∧
      (engineTick s).processing = true) ∧
    (∀ s : EngineState, ∃ n, (engineTickN n s).processing = false) := by
  constructor
  · intro s ko fp rest hp hcur hne hbroken
    have hsync : syncTargetW ko.2.sourceFile ko.2.op s.vault fp = (s.vault, false) := by
      rw [syncTargetW, if_neg hne]
      rcases hlv : lookupVault s.vault fp with _ | e
      · rfl
      · rcases e with c | _
        · rcases c with d | raw
          · exact absurd hlv (hbroken d)
          · rfl
        · rfl
    obtain ⟨q0, p0, c0, g0, v0, w0, n0, t0⟩ := s
    subst hp
    dsimp only at hcur hsync ⊢
    subst hcur
    simp only [engineTick]
    rw [if_pos True.intro, hsync]
    exact ⟨rfl, rfl, rfl, rfl, rfl, rfl⟩
  · intro s
    exact engineTickN_reaches_idle_aux (engineMeasure s) s (Nat.le_refl _)

/-- Witness for C7: in a concrete draining state whose next target
`B.canvas` is missing from the vault, the tick skips it — state otherwise
unchanged — and the same state drains to Idle. -/
theorem c7_target_failure_local_witness :
    ((engineTick ⟨[], true, some ((0, ⟨OpData.deleteNode "n1", "A.canvas"⟩),
          ["B.canvas", "A.canvas"]), [⟨["A.canvas", "B.canvas"], 0⟩],
        [("A.canvas", VaultEntry.file (FileContent.canvas ⟨[], []⟩))], [], 1, 4⟩).vault
        = [("A.canvas", VaultEntry.file (FileContent.canvas ⟨[], []⟩))] ∧
      (engineTick ⟨[], true, some ((0, ⟨OpData.deleteNode "n1", "A.canvas"⟩),
          ["B.canvas", "A.canvas"]), [⟨["A.canvas", "B.canvas"], 0⟩],
        [("A.canvas", VaultEntry.file (FileContent.canvas ⟨[], []⟩))], [], 1, 4⟩).writes = [] ∧
      (engineTick ⟨[], true, some ((0, ⟨OpData.deleteNode "n1", "A.canvas"⟩),
          ["B.canvas", "A.canvas"]), [⟨["A.canvas", "B.canvas"], 0⟩],
        [("A.canvas", VaultEntry.file (FileContent.canvas ⟨[], []⟩))], [], 1, 4⟩).queue = [] ∧
      (engineTick ⟨[], true, some ((0, ⟨OpData.deleteNode "n1", "A.canvas"⟩),
          ["B.canvas", "A.canvas"]), [⟨["A.canvas", "B.canvas"], 0⟩],
        [("A.canvas", VaultEntry.file (FileContent.canvas ⟨[], []⟩))], [], 1, 4⟩).groups
        = [⟨["A.canvas", "B.canvas"], 0⟩] ∧
      (engineTick ⟨[], true, some ((0, ⟨OpData.deleteNode "n1", "A.canvas"⟩),
          ["B.canvas", "A.canvas"]), [⟨["A.canvas", "B.canvas"], 0⟩],
        [("A.canvas", VaultEntry.file (FileContent.canvas ⟨[], []⟩))], [], 1, 4⟩).current
        = some ((0, ⟨OpData.deleteNode "n1", "A.canvas"⟩), ["A.canvas"]) ∧
      (engineTick ⟨[], true, some ((0, ⟨OpData.deleteNode "n1", "A.canvas"⟩),
          ["B.canvas", "A.canvas"]), [⟨["A.canvas", "B.canvas"], 0⟩],
        [("A.canvas", VaultEntry.file (FileContent.canvas ⟨[], []⟩))], [], 1, 4⟩).processing
        = true) ∧
    (∃ n, (engineTickN n ⟨[], true, some ((0, ⟨OpData.deleteNode "n1", "A.canvas"⟩),
          ["B.canvas", "A.canvas"]), [⟨["A.canvas", "B.canvas"], 0⟩],
        [("A.canvas", VaultEntry.file (FileContent.canvas ⟨[], []⟩))], [], 1, 4⟩).processing
        = false) := by
  constructor
  · exact c7_target_failure_local.1 _ (0, ⟨OpData.deleteNode "n1", "A.canvas"⟩)
      "B.canvas" ["A.canvas"] rfl rfl (by decide)
      (fun c h => by simp [lookupVault] at h)
  · exact c7_target_failure_local.2 _
